import Mathlib

/-!
Verification of the `eth-binary-tree` repository: a binary authenticated
key-value tree (31-byte stem / 1-byte subindex keys, BLAKE3-based hashing)
together with its address-derived key-embedding scheme.

Byte strings are modelled as `List Nat` (each element one byte).  The tree
hashing routines are parameterised by the underlying digest function
`d : List Nat → List Nat`, standing for the external `blake3` crate; a
concrete executable single-chunk BLAKE3 (bit-exact for inputs up to 1024
bytes, validated against the repository's own test vectors) is provided for
evaluating concrete scenarios.

Rust's `Option<TreeNode>` child pointers are modelled by the dedicated
`TreeNode.empty` constructor; a Rust panic (assertion failure or
out-of-bounds index) is modelled by an operation returning `none`.
-/

set_option maxRecDepth 100000
set_option maxHeartbeats 2000000

abbrev Bytes := List Nat

/-- The all-zero byte string of length `n`. -/
def zeros (n : Nat) : Bytes := List.replicate n 0

/-- `BinaryTree::bytes_to_bits`: most-significant bit first within each byte,
byte 0 first (`(0..8).rev().map(|i| (byte >> i) & 1)`). -/
def bytesToBits (bytes : Bytes) : List Nat :=
  bytes.flatMap (fun byte => ((List.range 8).reverse).map (fun i => byte / 2 ^ i % 2))

/-- `TreeNode` from `src/tree.rs`.  `empty` models an absent node
(Rust `None` in `Option<TreeNode>` / `Option<Box<TreeNode>>`); `stem`
carries the 31-byte stem and the 256 optional values of a `StemNode`;
`internal` carries the two optional children of an `InternalNode`. -/
inductive TreeNode where
  | empty : TreeNode
  | stem (stem : Bytes) (values : List (Option Bytes)) : TreeNode
  | internal (left : TreeNode) (right : TreeNode) : TreeNode
deriving DecidableEq

/-- `StemNode::new` followed by `set_value`: a fresh stem node holding a
single value at position `sub`. -/
def newStemNode (stem : Bytes) (sub : Nat) (value : Bytes) : TreeNode :=
  .stem stem ((List.replicate 256 (none : Option Bytes)).set sub (some value))

/-- Recursion core of `BinaryTree::split_leaf`, with a structural fuel
argument so that the definition evaluates by kernel reduction.  Each
recursive call raises `depth` by one while the fuel chosen by `splitLeaf`
exceeds the number of stem bits above `depth`, so the fuel never runs out
before the indexing check fails, and the `0` branch is the same
out-of-bounds panic, modelled as `none`. -/
def splitLeafGo (leafStem : Bytes) (leafValues : List (Option Bytes)) (stem : Bytes)
    (sub : Nat) (value : Bytes) (existingStemBits : List Nat) :
    Nat → Nat → Option TreeNode
  | 0, _ => none
  | fuel + 1, depth =>
    match (bytesToBits stem).get? depth, existingStemBits.get? depth with
    | some b, some eb =>
      if b = eb then
        (splitLeafGo leafStem leafValues stem sub value existingStemBits fuel
            (depth + 1)).map
          (fun child =>
            if b = 0 then .internal child .empty else .internal .empty child)
      else
        if b = 0 then
          some (.internal (newStemNode stem sub value) (.stem leafStem leafValues))
        else
          some (.internal (.stem leafStem leafValues) (newStemNode stem sub value))
    | _, _ => none

/-- `BinaryTree::split_leaf`.  The result is `none` when the Rust code would
panic (indexing `stem_bits[depth]` or `existing_stem_bits[depth]` out of
bounds, which happens exactly when the recursion exhausts the bit streams). -/
def splitLeaf (leafStem : Bytes) (leafValues : List (Option Bytes)) (stem : Bytes)
    (sub : Nat) (value : Bytes) (existingStemBits : List Nat) (depth : Nat) :
    Option TreeNode :=
  splitLeafGo leafStem leafValues stem sub value existingStemBits
    ((bytesToBits stem).length + 1 - depth) depth

/-- `BinaryTree::insert_rec`.  `none` models a panic: the
`assert!(depth < 248)` failing, or a bit index out of range. -/
def insertRec (node : TreeNode) (stem : Bytes) (sub : Nat) (value : Bytes)
    (depth : Nat) : Option TreeNode :=
  if depth < 248 then
    match node with
    | .empty => some (newStemNode stem sub value)
    | .stem ls lv =>
      if ls = stem then some (.stem ls (lv.set sub (some value)))
      else splitLeaf ls lv stem sub value (bytesToBits ls) depth
    | .internal l r =>
      match (bytesToBits stem).get? depth with
      | some b =>
        if b = 0 then
          (insertRec l stem sub value (depth + 1)).map (fun n => .internal n r)
        else
          (insertRec r stem sub value (depth + 1)).map (fun n => .internal l n)
      | none => none
  else none

/-- `BinaryTree::insert` acting on the root: the stem is `key[..31]`, the
subindex is `key[31]`; an empty tree receives a fresh stem leaf, otherwise
`insert_rec` runs from depth 0. -/
def insertTree (root : TreeNode) (key value : Bytes) : Option TreeNode :=
  let stem := key.take 31
  let sub := key.getD 31 0
  match root with
  | .empty => some (newStemNode stem sub value)
  | _ => insertRec root stem sub value 0

/-- A sequence of `insert` calls, aborting (`none`) as soon as one panics. -/
def insertList (root : TreeNode) : List (Bytes × Bytes) → Option TreeNode
  | [] => some root
  | kv :: rest =>
    match insertTree root kv.1 kv.2 with
    | some t => insertList t rest
    | none => none

/-- `BinaryTree::hash`: the tree hasher built on a digest function `d`
(standing for the external `blake3` crate): empty input and the 64-byte
all-zero input are special-cased to 32 zero bytes, everything else gets the
plain digest. -/
def treeHash (d : Bytes → Bytes) (data : Bytes) : Bytes :=
  if data = [] ∨ data = zeros 64 then zeros 32 else d data

/-- One pass of the `level.chunks(2)` loop body inside the stem arm of
`_merkelize` / `hash_node` / `verify_proof`: hash adjacent pairs `H(a ++ b)`,
pass a lone trailing element through as `H(a)`. -/
def pairRound (d : Bytes → Bytes) : List Bytes → List Bytes
  | a :: b :: rest => treeHash d (a ++ b) :: pairRound d rest
  | [a] => [treeHash d a]
  | [] => []

/-- The `while level.len() > 1` folding loop, with structural fuel so that it
evaluates by kernel reduction; `level.length` rounds always suffice since each
round at least halves a length that is at least 2, and a fuel of `0` returns
the level unchanged just as the loop does once the length is at most 1. -/
def foldLevelGo (d : Bytes → Bytes) : Nat → List Bytes → List Bytes
  | 0, level => level
  | fuel + 1, level =>
    if level.length ≤ 1 then level else foldLevelGo d fuel (pairRound d level)

/-- The `while level.len() > 1` folding loop of the stem-leaf hashing. -/
def foldLevel (d : Bytes → Bytes) (level : List Bytes) : List Bytes :=
  foldLevelGo d level.length level

/-- The initial 256-entry level of a stem node's value subtree:
`hash_fn(opt.as_deref().unwrap_or(&[0; 64]))` for each slot. -/
def stemLevel (d : Bytes → Bytes) (values : List (Option Bytes)) : List Bytes :=
  values.map (fun opt => treeHash d (opt.getD (zeros 64)))

/-- The inner `_merkelize` of `BinaryTree::merkelize`.  In the stem arm the
source reads `level[0]`, which always exists because the initial level has
256 entries; the `headD` default is unreachable there. -/
def merkRec (d : Bytes → Bytes) : TreeNode → Bytes
  | .empty => zeros 32
  | .internal l r => treeHash d (merkRec d l ++ merkRec d r)
  | .stem s values =>
    treeHash d (s ++ [0] ++ (foldLevel d (stemLevel d values)).headD (zeros 32))

/-- `BinaryTree::merkelize`: `_merkelize` applied to the root. -/
def merkelize (d : Bytes → Bytes) (root : TreeNode) : Bytes := merkRec d root

/-- `BinaryTree::hash_node`, the second (duplicated) hashing routine, used by
`get_proof` for sibling hashes. -/
def hashNode (d : Bytes → Bytes) : TreeNode → Bytes
  | .empty => zeros 32
  | .internal l r => treeHash d (hashNode d l ++ hashNode d r)
  | .stem s values =>
    treeHash d (s ++ [0] ++ (foldLevel d (stemLevel d values)).headD (zeros 32))

/-- BLAKE3: right rotation of a 32-bit word. -/
def rotr (x n : Nat) : Nat := (x / 2 ^ n + x % 2 ^ n * 2 ^ (32 - n)) % 2 ^ 32

/-- BLAKE3 quarter-round `g` on a 16-word state held as a list. -/
def gMix (st : List Nat) (a b c d mx my : Nat) : List Nat :=
  let st := st.set a ((st.getD a 0 + st.getD b 0 + mx) % 2 ^ 32)
  let st := st.set d (rotr ((st.getD d 0) ^^^ (st.getD a 0)) 16)
  let st := st.set c ((st.getD c 0 + st.getD d 0) % 2 ^ 32)
  let st := st.set b (rotr ((st.getD b 0) ^^^ (st.getD c 0)) 12)
  let st := st.set a ((st.getD a 0 + st.getD b 0 + my) % 2 ^ 32)
  let st := st.set d (rotr ((st.getD d 0) ^^^ (st.getD a 0)) 8)
  let st := st.set c ((st.getD c 0 + st.getD d 0) % 2 ^ 32)
  st.set b (rotr ((st.getD b 0) ^^^ (st.getD c 0)) 7)

/-- One BLAKE3 round: four column mixes then four diagonal mixes. -/
def blakeRound (st m : List Nat) : List Nat :=
  let st := gMix st 0 4 8 12 (m.getD 0 0) (m.getD 1 0)
  let st := gMix st 1 5 9 13 (m.getD 2 0) (m.getD 3 0)
  let st := gMix st 2 6 10 14 (m.getD 4 0) (m.getD 5 0)
  let st := gMix st 3 7 11 15 (m.getD 6 0) (m.getD 7 0)
  let st := gMix st 0 5 10 15 (m.getD 8 0) (m.getD 9 0)
  let st := gMix st 1 6 11 12 (m.getD 10 0) (m.getD 11 0)
  let st := gMix st 2 7 8 13 (m.getD 12 0) (m.getD 13 0)
  gMix st 3 4 9 14 (m.getD 14 0) (m.getD 15 0)

/-- The BLAKE3 message-word permutation applied between rounds. -/
def permuteMsg (m : List Nat) : List Nat :=
  [2, 6, 3, 10, 7, 0, 4, 13, 1, 11, 12, 5, 9, 14, 15, 8].map (fun i => m.getD i 0)

/-- The BLAKE3 initialisation vector. -/
def blakeIV : List Nat :=
  [0x6A09E667, 0xBB67AE85, 0x3C6EF372, 0xA54FF53A,
   0x510E527F, 0x9B05688C, 0x1F83D9AB, 0x5BE0CD19]

def compressRounds : Nat → List Nat → List Nat → List Nat
  | 0, st, _ => st
  | n + 1, st, m => compressRounds n (blakeRound st m) (permuteMsg m)

/-- The BLAKE3 compression function, truncated to the 8 chaining words. -/
def blakeCompress (h m : List Nat) (counter blockLen flags : Nat) : List Nat :=
  let st0 := h ++ [0x6A09E667, 0xBB67AE85, 0x3C6EF372, 0xA54FF53A] ++
    [counter % 2 ^ 32, counter / 2 ^ 32 % 2 ^ 32, blockLen, flags]
  let st := compressRounds 7 st0 m
  (List.range 8).map (fun i => (st.getD i 0) ^^^ (st.getD (i + 8) 0))

/-- A 64-byte block (zero-padded via the `getD` default) as 16 little-endian
32-bit words. -/
def leWords16 (block : Bytes) : List Nat :=
  (List.range 16).map (fun i =>
    block.getD (4 * i) 0 + block.getD (4 * i + 1) 0 * 256 +
      block.getD (4 * i + 2) 0 * 65536 + block.getD (4 * i + 3) 0 * 16777216)

/-- 32-bit words back to little-endian bytes. -/
def wordsToBytes (ws : List Nat) : Bytes :=
  ws.flatMap (fun w => [w % 256, w / 256 % 256, w / 65536 % 256, w / 16777216 % 256])

/-- Flags of a block within the first chunk: `CHUNK_START = 1` on the first
block, `CHUNK_END ||| ROOT = 2 + 8` on the last. -/
def chunkFlags (first last : Bool) : Nat :=
  (if first then 1 else 0) + (if last then 10 else 0)

/-- Sequential block compression of a single BLAKE3 chunk, with structural
fuel (one unit per block; the caller passes the data length, far more than
enough).  When the remaining data fits one block it is the last block. -/
def blake3Go : Nat → List Nat → Bytes → Bool → List Nat
  | 0, h, data, first =>
    blakeCompress h (leWords16 data) 0 data.length (chunkFlags first true)
  | fuel + 1, h, data, first =>
    if data.length ≤ 64 then
      blakeCompress h (leWords16 data) 0 data.length (chunkFlags first true)
    else
      blake3Go fuel
        (blakeCompress h (leWords16 (data.take 64)) 0 64 (chunkFlags first false))
        (data.drop 64) false

/-- The BLAKE3 digest of the external `blake3` crate, bit-exact for inputs of
at most 1024 bytes (a single chunk; every input hashed by this repository is
at most 64 bytes).  Validated below against the repository's own expected
root hashes. -/
def blake3Bytes (data : Bytes) : Bytes :=
  wordsToBytes (blake3Go data.length blakeIV data true)

/-- `MerkleProof` from `src/tree.rs`: sibling hashes root-to-leaf, the
optional value, the subindex and the stem. -/
structure MerkleProof where
  path : List Bytes
  value : Option Bytes
  subindex : Nat
  stem : Bytes
deriving DecidableEq

/-- The `while let Internal(node) = current` descent of
`BinaryTree::get_proof`.  Each step reads the stem bit at `depth` (absent →
`None`), records the sibling's `hash_node` digest, and moves to the selected
child; at a stem node the proof is produced only when the stems agree.
Rust's `current = next_node.as_deref()?` (returning `None` on an absent
child, discarding the recorded path) is modelled by recursing into the
child, where the `empty` case returns `none`. -/
def getProofRec (d : Bytes → Bytes) :
    TreeNode → List Nat → Bytes → Nat → Nat → List Bytes → Option MerkleProof
  | .internal l r, stemBits, stem, sub, depth, path =>
    match stemBits.get? depth with
    | none => none
    | some b =>
      if b = 0 then
        getProofRec d l stemBits stem sub (depth + 1) (path ++ [hashNode d r])
      else
        getProofRec d r stemBits stem sub (depth + 1) (path ++ [hashNode d l])
  | .stem ls lv, _, stem, sub, _, path =>
    if ls ≠ stem then none
    else some ⟨path, lv.getD sub none, sub, stem⟩
  | .empty, _, _, _, _, _ => none

/-- `BinaryTree::get_proof`.  The subindex lookup `values[subindex]` is
modelled with `getD` (the index is a byte, always within the 256 slots). -/
def getProof (d : Bytes → Bytes) (root : TreeNode) (key : Bytes) :
    Option MerkleProof :=
  let stem := key.take 31
  let sub := key.getD 31 0
  match root with
  | .empty => none
  | n => getProofRec d n (bytesToBits stem) stem sub 0 []

/-- The leaf level recomputed by `verify_proof`: only position `subindex`
is populated (value absent represented as the 64-byte zero string). -/
def verifyLeafLevel (d : Bytes → Bytes) (sub : Nat) (value : Option Bytes) :
    List Bytes :=
  (List.range 256).map (fun i =>
    if i = sub then treeHash d (value.getD (zeros 64)) else treeHash d (zeros 64))

/-- The `for (depth, sibling_hash) in path.iter().rev().enumerate()` loop of
`verify_proof`: the stem bit at `path.len() - 1 - depth` (default 0) decides
the left/right placement. -/
def foldPath (d : Bytes → Bytes) (stemBits : List Nat) (plen : Nat) :
    List Bytes → Nat → Bytes → Bytes
  | [], _, h => h
  | sib :: rest, depth, h =>
    let b := stemBits.getD (plen - 1 - depth) 0
    let combined := if b = 0 then h ++ sib else sib ++ h
    foldPath d stemBits plen rest (depth + 1) (treeHash d combined)

/-- `verify_proof` from `src/tree.rs`.  The `key` parameter is unused, as it
is in the source. -/
def verifyProof (d : Bytes → Bytes) (proof : MerkleProof) (rootHash : Bytes)
    (_key : Bytes) : Bool :=
  let folded := foldLevel d (verifyLeafLevel d proof.subindex proof.value)
  let leafHash := treeHash d (proof.stem ++ [0] ++ folded.headD (zeros 32))
  foldPath d (bytesToBits proof.stem) proof.path.length proof.path.reverse 0
      leafHash ==
    rootHash

/-- Constants from `src/embedding.rs`. -/
def BASIC_DATA_LEAF_KEY : Nat := 0

def CODE_HASH_LEAF_KEY : Nat := 1

def HEADER_STORAGE_OFFSET : Nat := 64

def CODE_OFFSET : Nat := 128

def STEM_SUBTREE_WIDTH : Nat := 256

def MAIN_STORAGE_OFFSET : Nat := 256

def PUSH_OFFSET : Nat := 95

def PUSH1 : Nat := PUSH_OFFSET + 1

def PUSH32 : Nat := PUSH_OFFSET + 32

/-- `u64::to_le_bytes`: eight little-endian bytes. -/
def le64 (n : Nat) : Bytes := (List.range 8).map (fun i => n / 2 ^ (8 * i) % 256)

/-- `get_tree_key`: hash the 40-byte `address ++ tree_index` buffer with the
plain digest (`tree_hash` in the source applies blake3 with no zero special
case), keep the first 31 bytes, and append `sub_index` as byte 31. -/
def getTreeKey (d : Bytes → Bytes) (addr : Bytes) (treeIndex subIndex : Nat) :
    Bytes :=
  (d (addr ++ le64 treeIndex)).take 31 ++ [subIndex]

/-- `get_tree_key_for_storage_slot`. -/
def getTreeKeyForStorageSlot (d : Bytes → Bytes) (addr : Bytes)
    (storageKey : Nat) : Bytes :=
  let pos :=
    if storageKey < CODE_OFFSET - HEADER_STORAGE_OFFSET then
      HEADER_STORAGE_OFFSET + storageKey
    else MAIN_STORAGE_OFFSET + storageKey
  getTreeKey d addr (pos / STEM_SUBTREE_WIDTH) (pos % STEM_SUBTREE_WIDTH)

/-- The guarded write loop `for x in 0..pushdata_bytes` of `chunkify_code`:
writes `n - x` at `pos + x` for `x` in `0..n` (`List.set` is a no-op out of
range, exactly like the `get_mut` guard). -/
def writeRun (scratch : List Nat) (start n : Nat) : List Nat :=
  (List.range n).foldl (fun s x => s.set (start + x) (n - x)) scratch

/-- The `while pos < padded_code.len()` scan of `chunkify_code`, with
structural fuel (`pos` advances by at least one per iteration, so
`padded.length + 1` units never run out before the guard fails). -/
def buildScratchGo (padded : List Nat) : Nat → Nat → List Nat → List Nat
  | 0, _, scratch => scratch
  | fuel + 1, pos, scratch =>
    if pos < padded.length then
      let b := padded.getD pos 0
      let n := if PUSH1 ≤ b ∧ b ≤ PUSH32 then b - PUSH_OFFSET else 0
      buildScratchGo padded fuel (pos + 1 + n) (writeRun scratch (pos + 1) n)
    else scratch

/-- `padded_code.chunks(31)`, with structural fuel (`l.length` suffices). -/
def chunksGo : Nat → Bytes → List Bytes
  | 0, _ => []
  | fuel + 1, l => if l = [] then [] else l.take 31 :: chunksGo fuel (l.drop 31)

def chunksOf31 (l : Bytes) : List Bytes := chunksGo l.length l

/-- `chunkify_code` from `src/embedding.rs`: pad to a multiple of 31, build
the push-data scratch table, then emit one 32-byte leaf per 31-byte chunk,
headed by `scratch[i * 31]`.  Each chunk of the padded code has exactly 31
bytes, so `exec_byte :: chunk` is the 32-byte array the source builds. -/
def chunkifyCode (code : Bytes) : List Bytes :=
  let padded :=
    if code.length % 31 = 0 then code
    else code ++ List.replicate (31 - code.length % 31) 0
  let scratch :=
    buildScratchGo padded (padded.length + 1) 0
      (List.replicate (padded.length + 32) 0)
  (chunksOf31 padded).enum.map (fun p => scratch.getD (p.1 * 31) 0 :: p.2)

/-- Key whose stem has first byte `0x80` and zeros elsewhere, subindex 0. -/
def keyD : Bytes := 128 :: zeros 31

/-- Key with 31 zero stem bytes and subindex 0. -/
def keyA : Bytes := zeros 32

/-- Key whose stem differs from the all-zero stem only at bit 247
(the final stem bit): byte 30 is 1. -/
def keyC : Bytes := zeros 30 ++ [1, 0]

/-- Key sharing the all-zero stem of `keyA`, subindex 1. -/
def keyB : Bytes := zeros 31 ++ [1]

def valA : Bytes := List.replicate 32 1

def valB : Bytes := List.replicate 32 2

def valC : Bytes := List.replicate 32 3

/-- The stems of all stem leaves of a (sub)tree, in left-to-right order. -/
def stemsOf : TreeNode → List Bytes
  | .empty => []
  | .stem s _ => [s]
  | .internal l r => stemsOf l ++ stemsOf r

/-- The value slots stored for a stem, scanning the tree structurally. -/
def lookupStem : TreeNode → Bytes → Option (List (Option Bytes))
  | .empty, _ => none
  | .stem s vals, q => if s = q then some vals else none
  | .internal l r, q => (lookupStem l q) <|> (lookupStem r q)

/-- The value stored at (stem, subindex), if any. -/
def valueAt (t : TreeNode) (s : Bytes) (i : Nat) : Option Bytes :=
  (lookupStem t s).bind (fun vals => vals.getD i none)

/-- Structural well-formedness of a subtree rooted at depth `d`, as
maintained by insertion: every internal node has at least two stems below it,
and its left (right) subtree only holds stems whose bit at the node's depth
is 0 (1) — in particular that bit exists. -/
def WF : Nat → TreeNode → Prop
  | _, .empty => True
  | _, .stem _ _ => True
  | d, .internal l r =>
    2 ≤ (stemsOf l).length + (stemsOf r).length ∧
      (∀ s ∈ stemsOf l, (bytesToBits s).get? d = some 0) ∧
      (∀ s ∈ stemsOf r, (bytesToBits s).get? d = some 1) ∧
      WF (d + 1) l ∧ WF (d + 1) r

/-- The specification-level effect of one insertion on the abstract
stem-to-slots map: the addressed stem's 256 slots (fresh if absent) get the
value written at the key's subindex; all other stems are untouched. -/
def modelStep (m : Bytes → Option (List (Option Bytes))) (kv : Bytes × Bytes) :
    Bytes → Option (List (Option Bytes)) :=
  fun q =>
    if q = kv.1.take 31 then
      some (((m (kv.1.take 31)).getD (List.replicate 256 none)).set
        (kv.1.getD 31 0) (some kv.2))
    else m q

/-- Constant digest used to instantiate hypotheses at concrete inputs. -/
def dOnes : Bytes → Bytes := fun _ => List.replicate 32 1

/-- Spec wording (§4.3.3): the hash of value slot `i` is `H(values[i])` when
present, else `H` of the 64-byte zero string. -/
def specSlotHash (d : Bytes → Bytes) (slot : Option Bytes) : Bytes :=
  match slot with
  | some v => treeHash d v
  | none => treeHash d (zeros 64)

/-- Spec wording (§4.3.3): one pairwise folding round, `(a, b) ↦ H(a ++ b)`;
an incomplete tail (never hit on 256 slots) is left unchanged. -/
def specPairFold (d : Bytes → Bytes) : List Bytes → List Bytes
  | a :: b :: rest => treeHash d (a ++ b) :: specPairFold d rest
  | l => l

/-- Spec wording (§4.3.3): the stem leaf's hash is
`H(stem ++ 0x00 ++ content_root)` where the content root is the slot-hash
level folded pairwise through exactly eight rounds. -/
def specStemHash (d : Bytes → Bytes) (s : Bytes) (values : List (Option Bytes)) :
    Bytes :=
  treeHash d
    (s ++ [0] ++ ((specPairFold d)^[8] (values.map (specSlotHash d))).headD (zeros 32))

/-- The root hash the repository's `test_single_entry` expects,
`694545468677064fd833cddc8455762fe6b21c6cabe2fc172529e0f573181cd5`. -/
def repoRootSingle : Bytes :=
  [0x69, 0x45, 0x45, 0x46, 0x86, 0x77, 0x06, 0x4f,
   0xd8, 0x33, 0xcd, 0xdc, 0x84, 0x55, 0x76, 0x2f,
   0xe6, 0xb2, 0x1c, 0x6c, 0xab, 0xe2, 0xfc, 0x17,
   0x25, 0x29, 0xe0, 0xf5, 0x73, 0x18, 0x1c, 0xd5]

/-! ## Theorems -/

/-- C10: the two duplicated hashing routines agree: `merkelize` equals
`hash_node` on every tree (in particular on the optional root and on every
sibling subtree recorded during `get_proof` descents). -/
theorem C10_merkelize_eq_hashNode (d : Bytes → Bytes) (t : TreeNode) :
    merkelize d t = hashNode d t := by
  unfold merkelize
  induction t with
  | empty => rfl
  | stem s values => rfl
  | internal l r ihl ihr => simp only [merkRec, hashNode, ihl, ihr]

/-- C4: the tree hasher returns 32 zero bytes on empty input and on the
64-byte zero input, returns the plain digest on every other input (no other
input is special-cased), and — whenever the digest itself never produces the
zero string — returns the zero string exactly on those two inputs. -/
theorem C4_hash_special_cases (d : Bytes → Bytes) (data : Bytes) :
    ((data = [] ∨ data = zeros 64) → treeHash d data = zeros 32) ∧
      (¬(data = [] ∨ data = zeros 64) → treeHash d data = d data) ∧
      ((∀ x, d x ≠ zeros 32) →
        (treeHash d data = zeros 32 ↔ (data = [] ∨ data = zeros 64))) := by
  refine ⟨fun h => by simp [treeHash, h], fun h => by simp [treeHash, h], fun hd => ?_⟩
  constructor
  · intro hz
    by_contra hn
    rw [treeHash, if_neg hn] at hz
    exact hd data hz
  · intro hs
    simp [treeHash, hs]

/-- Witness for C4 at concrete inputs: `[5, 6]` hashes to the plain digest,
the zero cases hold, and with a digest that never returns zero the
zero-output characterisation holds at `[5, 6]`. -/
theorem C4_hash_special_cases_witness :
    treeHash dOnes [5, 6] = dOnes [5, 6] ∧
      treeHash dOnes (zeros 64) = zeros 32 ∧
      (treeHash dOnes [5, 6] = zeros 32 ↔
        ([5, 6] = ([] : Bytes) ∨ [5, 6] = zeros 64)) :=
  ⟨(C4_hash_special_cases dOnes [5, 6]).2.1 (by decide),
   (C4_hash_special_cases dOnes (zeros 64)).1 (Or.inr rfl),
   (C4_hash_special_cases dOnes [5, 6]).2.2 (fun x => by simp only [dOnes]; decide)⟩

theorem pairRound_length (d : Bytes → Bytes) :
    ∀ l : List Bytes, (pairRound d l).length = (l.length + 1) / 2
  | [] => by simp [pairRound]
  | [a] => by simp [pairRound]
  | a :: b :: rest => by
    simp only [pairRound, List.length_cons, pairRound_length d rest]
    omega

theorem pairRound_eq_specPairFold (d : Bytes → Bytes) :
    ∀ l : List Bytes, l.length % 2 = 0 → pairRound d l = specPairFold d l
  | [] => fun _ => rfl
  | [a] => fun h => by simp at h
  | a :: b :: rest => fun h => by
    have h' : rest.length % 2 = 0 := by
      simp only [List.length_cons] at h
      omega
    simp only [pairRound, specPairFold]
    rw [pairRound_eq_specPairFold d rest h']

theorem foldLevelGo_pow (d : Bytes → Bytes) :
    ∀ (k fuel : Nat) (l : List Bytes), l.length = 2 ^ k → k ≤ fuel →
      foldLevelGo d fuel l = (specPairFold d)^[k] l := by
  intro k
  induction k with
  | zero =>
    intro fuel l hl _
    cases fuel with
    | zero => rfl
    | succ f =>
      have : l.length ≤ 1 := by omega
      simp [foldLevelGo, this]
  | succ k ih =>
    intro fuel l hl hf
    cases fuel with
    | zero => omega
    | succ f =>
      have h2 : 2 ≤ 2 ^ (k + 1) := by
        calc 2 = 2 ^ 1 := by norm_num
        _ ≤ 2 ^ (k + 1) := Nat.pow_le_pow_right (by norm_num) (by omega)
      have hgt : ¬ l.length ≤ 1 := by omega
      have heven : l.length % 2 = 0 := by
        have : 2 ^ (k + 1) = 2 ^ k * 2 := by rw [pow_succ]
        omega
      have hlen' : (specPairFold d l).length = 2 ^ k := by
        rw [← pairRound_eq_specPairFold d l heven, pairRound_length d l, hl, pow_succ]
        omega
      rw [foldLevelGo, if_neg hgt, pairRound_eq_specPairFold d l heven,
        ih f (specPairFold d l) hlen' (by omega), ← Function.iterate_succ_apply]

theorem stemLevel_eq_map_specSlotHash (d : Bytes → Bytes)
    (values : List (Option Bytes)) :
    stemLevel d values = values.map (specSlotHash d) := by
  have h : (fun opt : Option Bytes => treeHash d (opt.getD (zeros 64))) =
      specSlotHash d := funext (fun o => by cases o <;> rfl)
  rw [stemLevel, h]

/-- C5: on every stem leaf (256 value slots), the source's stem-arm hashing
(`while`-loop folding of the slot-hash level, then
`hash(stem ++ [0] ++ level[0])`) computes exactly the specification formula:
eight pairwise folding rounds to a content root, then
`H(stem ++ 0x00 ++ content_root)`. -/
theorem C5_stem_leaf_hash (d : Bytes → Bytes) (s : Bytes)
    (values : List (Option Bytes)) (h : values.length = 256) :
    merkelize d (.stem s values) = specStemHash d s values := by
  show treeHash d (s ++ [0] ++ (foldLevel d (stemLevel d values)).headD (zeros 32)) =
    specStemHash d s values
  rw [stemLevel_eq_map_specSlotHash, specStemHash, foldLevel,
    foldLevelGo_pow d 8 (values.map (specSlotHash d)).length
      (values.map (specSlotHash d)) (by simp [h]) (by simp [h])]

/-- Witness for C5 at a concrete stem leaf (all slots absent). -/
theorem C5_stem_leaf_hash_witness :
    merkelize dOnes (.stem (zeros 31) (List.replicate 256 none)) =
      specStemHash dOnes (zeros 31) (List.replicate 256 none) :=
  C5_stem_leaf_hash dOnes (zeros 31) (List.replicate 256 none) (by simp)

theorem mem_bytesToBits_le_one {s : Bytes} {b : Nat} (h : b ∈ bytesToBits s) :
    b ≤ 1 := by
  simp only [bytesToBits, List.mem_flatMap, List.mem_map] at h
  obtain ⟨byte, -, i, -, rfl⟩ := h
  omega

theorem bit_get?_binary {s : Bytes} {d b : Nat}
    (h : (bytesToBits s).get? d = some b) : b = 0 ∨ b = 1 := by
  have := mem_bytesToBits_le_one (List.get?_mem h)
  omega

theorem lookupStem_eq_none_of_not_mem :
    ∀ (t : TreeNode) (q : Bytes), q ∉ stemsOf t → lookupStem t q = none := by
  intro t
  induction t with
  | empty => intros; rfl
  | stem s v =>
    intro q h
    have : s ≠ q := fun e => h (by simp [stemsOf, e])
    simp [lookupStem, this]
  | internal l r ihl ihr =>
    intro q h
    have hl : q ∉ stemsOf l := fun c => h (by simp [stemsOf, c])
    have hr : q ∉ stemsOf r := fun c => h (by simp [stemsOf, c])
    simp [lookupStem, ihl q hl, ihr q hr]

theorem lookupStem_isSome_of_mem :
    ∀ (t : TreeNode) (q : Bytes), q ∈ stemsOf t → (lookupStem t q).isSome := by
  intro t
  induction t with
  | empty => intro q h; simp [stemsOf] at h
  | stem s v =>
    intro q h
    simp only [stemsOf, List.mem_singleton] at h
    simp [lookupStem, h]
  | internal l r ihl ihr =>
    intro q h
    simp only [stemsOf, List.mem_append] at h
    rcases h with h | h
    · have := ihl q h
      simp only [lookupStem]
      cases hc : lookupStem l q with
      | none => rw [hc] at this; simp at this
      | some w => simp [hc]
    · simp only [lookupStem]
      cases hc : lookupStem l q with
      | none => simpa [hc] using ihr q h
      | some w => simp [hc]

theorem orElse_none_right {α : Type} (o : Option α) : (o <|> none) = o := by
  cases o <;> rfl

theorem stems_pairwise :
    ∀ (t : TreeNode) (d : Nat), WF d t → (stemsOf t).Pairwise (· ≠ ·) := by
  intro t
  induction t with
  | empty => intros; simp [stemsOf]
  | stem s v => intros; simp [stemsOf]
  | internal l r ihl ihr =>
    intro d hwf
    rw [WF] at hwf
    obtain ⟨-, hsl, hsr, hwl, hwr⟩ := hwf
    simp only [stemsOf]
    rw [List.pairwise_append]
    refine ⟨ihl _ hwl, ihr _ hwr, ?_⟩
    intro a ha b hb hab
    rw [hab] at ha
    have := (hsl b ha).symm.trans (hsr b hb)
    simp at this

theorem getProofRec_none_of_not_mem (d : Bytes → Bytes) :
    ∀ (t : TreeNode) (stemBits : List Nat) (stem : Bytes) (sub depth : Nat)
      (path : List Bytes), stem ∉ stemsOf t →
      getProofRec d t stemBits stem sub depth path = none := by
  intro t
  induction t with
  | empty => intros; rfl
  | stem ls lv =>
    intro _ stem _ _ _ h
    have hne : ls ≠ stem := fun e => h (by simp [stemsOf, e])
    simp [getProofRec, hne]
  | internal l r ihl ihr =>
    intro stemBits stem sub depth path h
    have hl : stem ∉ stemsOf l := fun c => h (by simp [stemsOf, c])
    have hr : stem ∉ stemsOf r := fun c => h (by simp [stemsOf, c])
    rw [getProofRec]
    cases hb : stemBits.get? depth with
    | none => rfl
    | some b =>
      by_cases hb0 : b = 0
      · simp only [if_pos hb0]
        exact ihl _ _ _ _ _ hl
      · simp only [if_neg hb0]
        exact ihr _ _ _ _ _ hr

/-- C7: on every tree built by insertions, a key whose 31-byte stem is held
by no stem leaf gets no proof: `get_proof` returns `None` (the descent dies
at an absent child, runs out of stem bits, or ends at a leaf with a
different stem). -/
theorem C7_absent_stem_no_proof (d : Bytes → Bytes) (L : List (Bytes × Bytes))
    (t : TreeNode) (key : Bytes) (_hL : insertList .empty L = some t)
    (h : key.take 31 ∉ stemsOf t) : getProof d t key = none := by
  unfold getProof
  cases t with
  | empty => rfl
  | stem s v => exact getProofRec_none_of_not_mem d _ _ _ _ _ _ h
  | internal l r => exact getProofRec_none_of_not_mem d _ _ _ _ _ _ h

/-- Witness for C7: the singleton tree holding the all-zero stem has no
proof for `keyC`, whose stem differs. -/
theorem C7_absent_stem_no_proof_witness :
    getProof dOnes (newStemNode (zeros 31) 0 valA) keyC = none :=
  C7_absent_stem_no_proof dOnes [(keyA, valA)] (newStemNode (zeros 31) 0 valA)
    keyC (by decide) (by decide)

theorem twoLeafLookup (a c : Bytes) (av cv : List (Option Bytes)) (_hac : a ≠ c)
    (q : Bytes) :
    lookupStem (.internal (.stem a av) (.stem c cv)) q =
      if q = a then some av else if q = c then some cv else none := by
  simp only [lookupStem]
  by_cases h1 : a = q
  · subst h1
    simp
  · have h1' : ¬ q = a := fun e => h1 e.symm
    by_cases h2 : c = q
    · subst h2
      simp [h1, h1']
    · have h2' : ¬ q = c := fun e => h2 e.symm
      simp [h1, h2, h1', h2']

theorem splitLeafGo_spec (ols : Bytes) (ovals : List (Option Bytes)) (s : Bytes)
    (sub : Nat) (v : Bytes) :
    ∀ (fuel depth : Nat) (t' : TreeNode), s ≠ ols →
      splitLeafGo ols ovals s sub v (bytesToBits ols) fuel depth = some t' →
      WF depth t' ∧
        (∀ q, lookupStem t' q =
          if q = s then
            some ((List.replicate 256 (none : Option Bytes)).set sub (some v))
          else if q = ols then some ovals else none) ∧
        (stemsOf t' = [s, ols] ∨ stemsOf t' = [ols, s]) := by
  intro fuel
  induction fuel with
  | zero =>
    intro depth t' hne h
    exact absurd h (by simp [splitLeafGo])
  | succ fuel ih =>
    intro depth t' hne h
    rw [splitLeafGo] at h
    cases hb : (bytesToBits s).get? depth with
    | none => rw [hb] at h; exact absurd h (by simp)
    | some b =>
      cases he : (bytesToBits ols).get? depth with
      | none => rw [hb, he] at h; exact absurd h (by simp)
      | some eb =>
        rw [hb, he] at h
        dsimp only at h
        by_cases hbe : b = eb
        · rw [if_pos hbe] at h
          obtain ⟨child, hchild, ht'⟩ := Option.map_eq_some'.mp h
          obtain ⟨hwfc, hlookc, hstemsc⟩ := ih (depth + 1) child hne hchild
          have hmemc : ∀ q ∈ stemsOf child, q = s ∨ q = ols := by
            intro q hq
            rcases hstemsc with hc | hc <;> rw [hc] at hq <;> simp at hq <;> tauto
          have hlenc : (stemsOf child).length = 2 := by
            rcases hstemsc with hc | hc <;> rw [hc] <;> rfl
          by_cases hb0 : b = 0
          · rw [if_pos hb0] at ht'
            subst ht'
            subst hb0
            refine ⟨?_, ?_, ?_⟩
            · rw [WF]
              refine ⟨?_, ?_, ?_, hwfc, trivial⟩
              · simp [stemsOf, hlenc]
              · intro q hq
                rcases hmemc q hq with rfl | rfl
                · exact hb
                · rw [he, ← hbe]
              · intro q hq
                simp [stemsOf] at hq
            · intro q
              have hored : lookupStem (.internal child .empty) q = lookupStem child q := by
                simp only [lookupStem]
                exact orElse_none_right _
              rw [hored, hlookc q]
            · have hs : stemsOf (.internal child .empty) = stemsOf child := by
                simp [stemsOf]
              rw [hs]
              exact hstemsc
          · have hb1 : b = 1 := by
              rcases bit_get?_binary hb with h0 | h1
              · exact absurd h0 hb0
              · exact h1
            rw [if_neg hb0] at ht'
            subst ht'
            subst hb1
            refine ⟨?_, ?_, ?_⟩
            · rw [WF]
              refine ⟨?_, ?_, ?_, trivial, hwfc⟩
              · simp [stemsOf, hlenc]
              · intro q hq
                simp [stemsOf] at hq
              · intro q hq
                rcases hmemc q hq with rfl | rfl
                · exact hb
                · rw [he, ← hbe]
            · intro q
              have hored : lookupStem (.internal .empty child) q = lookupStem child q := by
                simp only [lookupStem]
                rfl
              rw [hored, hlookc q]
            · have hs : stemsOf (.internal .empty child) = stemsOf child := by
                simp [stemsOf]
              rw [hs]
              exact hstemsc
        · rw [if_neg hbe] at h
          have heb : eb = if b = 0 then 1 else 0 := by
            rcases bit_get?_binary hb with h0 | h1 <;>
              rcases bit_get?_binary he with e0 | e1 <;>
                simp_all
          by_cases hb0 : b = 0
          · rw [if_pos hb0] at h
            cases h
            refine ⟨?_, ?_, ?_⟩
            · rw [WF]
              refine ⟨by simp [stemsOf, newStemNode], ?_, ?_, trivial, trivial⟩
              · intro q hq
                simp only [stemsOf, newStemNode, List.mem_singleton] at hq
                subst hq
                rw [hb, hb0]
              · intro q hq
                simp only [stemsOf, List.mem_singleton] at hq
                subst hq
                rw [he, heb, if_pos hb0]
            · intro q
              rw [show newStemNode s sub v =
                TreeNode.stem s ((List.replicate 256 (none : Option Bytes)).set sub
                  (some v)) from rfl]
              rw [twoLeafLookup s ols _ _ hne q]
            · left
              simp [stemsOf, newStemNode]
          · rw [if_neg hb0] at h
            cases h
            have hb1 : b = 1 := by
              rcases bit_get?_binary hb with h0 | h1
              · exact absurd h0 hb0
              · exact h1
            refine ⟨?_, ?_, ?_⟩
            · rw [WF]
              refine ⟨by simp [stemsOf, newStemNode], ?_, ?_, trivial, trivial⟩
              · intro q hq
                simp only [stemsOf, List.mem_singleton] at hq
                subst hq
                rw [he, heb, if_neg hb0]
              · intro q hq
                simp only [stemsOf, newStemNode, List.mem_singleton] at hq
                subst hq
                rw [hb, hb1]
            · intro q
              rw [show newStemNode s sub v =
                TreeNode.stem s ((List.replicate 256 (none : Option Bytes)).set sub
                  (some v)) from rfl]
              rw [twoLeafLookup ols s _ _ (Ne.symm hne) q]
              by_cases hqs : q = s
              · have : q ≠ ols := fun e => hne (hqs ▸ e)
                simp [hqs, this, hne]
              · simp [hqs]
            · right
              simp [stemsOf, newStemNode]

theorem insertRec_spec :
    ∀ (t : TreeNode) (dep : Nat) (s : Bytes) (sub : Nat) (v : Bytes) (t' : TreeNode),
      WF dep t → insertRec t s sub v dep = some t' →
      WF dep t' ∧
        (∀ q, lookupStem t' q =
          if q = s then
            some (((lookupStem t s).getD (List.replicate 256 none)).set sub (some v))
          else lookupStem t q) ∧
        (∀ q, q ∈ stemsOf t' ↔ q = s ∨ q ∈ stemsOf t) ∧
        (stemsOf t).Sublist (stemsOf t') := by
  intro t
  induction t with
  | empty =>
    intro dep s sub v t' _ h
    rw [insertRec] at h
    by_cases hd : dep < 248
    · rw [if_pos hd] at h
      cases h
      refine ⟨trivial, ?_, ?_, by simp [stemsOf, newStemNode]⟩
      · intro q
        by_cases hq : q = s
        · subst hq
          simp [lookupStem, newStemNode]
        · have : s ≠ q := fun e => hq e.symm
          simp [lookupStem, newStemNode, hq, this]
      · intro q
        simp [stemsOf, newStemNode]
    · rw [if_neg hd] at h
      exact absurd h (by simp)
  | stem ls lv =>
    intro dep s sub v t' _ h
    rw [insertRec] at h
    by_cases hd : dep < 248
    swap
    · rw [if_neg hd] at h
      exact absurd h (by simp)
    rw [if_pos hd] at h
    by_cases hls : ls = s
    · rw [if_pos hls] at h
      cases h
      subst hls
      refine ⟨trivial, ?_, ?_, List.Sublist.refl _⟩
      · intro q
        by_cases hq : q = ls
        · subst hq
          simp [lookupStem]
        · have : ls ≠ q := fun e => hq e.symm
          simp [lookupStem, hq, this]
      · intro q
        simp [stemsOf]
    · rw [if_neg hls] at h
      rw [splitLeaf] at h
      have hne : s ≠ ls := fun e => hls e.symm
      obtain ⟨hwf', hlook, hstems⟩ := splitLeafGo_spec ls lv s sub v _ dep t' hne h
      refine ⟨hwf', ?_, ?_, ?_⟩
      · intro q
        rw [hlook q]
        by_cases hq : q = s
        · subst hq
          simp [lookupStem, hls]
        · by_cases hql : q = ls
          · subst hql
            simp [lookupStem, hq]
          · have : ls ≠ q := fun e => hql e.symm
            simp [lookupStem, hq, hql, this]
      · intro q
        rcases hstems with hc | hc <;> rw [hc] <;> (simp [stemsOf]; try tauto)
      · rcases hstems with hc | hc <;> rw [hc] <;> simp only [stemsOf]
        · exact List.Sublist.cons _ (List.Sublist.refl _)
        · exact List.Sublist.cons₂ _ (List.nil_sublist _)
  | internal l r ihl ihr =>
    intro dep s sub v t' hwf h
    rw [insertRec] at h
    by_cases hd : dep < 248
    swap
    · rw [if_neg hd] at h
      exact absurd h (by simp)
    rw [if_pos hd] at h
    rw [WF] at hwf
    obtain ⟨hcount, hsl, hsr, hwl, hwr⟩ := hwf
    cases hb : (bytesToBits s).get? dep with
    | none =>
      rw [hb] at h
      exact absurd h (by simp)
    | some b =>
      rw [hb] at h
      dsimp only at h
      by_cases hb0 : b = 0
      · rw [if_pos hb0] at h
        obtain ⟨c, hc, ht'⟩ := Option.map_eq_some'.mp h
        subst ht'
        obtain ⟨hwfc, hlookc, hmemc, hsubc⟩ := ihl (dep + 1) s sub v c hwl hc
        have hsnr : s ∉ stemsOf r := by
          intro hmem
          have := Option.some.inj ((hsr s hmem).symm.trans hb)
          omega
        have hlr : lookupStem r s = none := lookupStem_eq_none_of_not_mem r s hsnr
        refine ⟨?_, ?_, ?_, ?_⟩
        · rw [WF]
          refine ⟨?_, ?_, hsr, hwfc, hwr⟩
          · have := hsubc.length_le
            omega
          · intro q hq
            rcases (hmemc q).mp hq with rfl | hq'
            · rw [hb, hb0]
            · exact hsl q hq'
        · intro q
          by_cases hq : q = s
          · rw [hq]
            have hlhs : lookupStem (TreeNode.internal c r) s = lookupStem c s := by
              show (lookupStem c s <|> lookupStem r s) = lookupStem c s
              rw [hlr, orElse_none_right]
            have hrhs : lookupStem (TreeNode.internal l r) s = lookupStem l s := by
              show (lookupStem l s <|> lookupStem r s) = lookupStem l s
              rw [hlr, orElse_none_right]
            rw [hlhs, hlookc s, hrhs]
          · simp only [lookupStem, hlookc q, if_neg hq]
        · intro q
          simp only [stemsOf, List.mem_append]
          rw [hmemc q]
          tauto
        · simp only [stemsOf]
          exact hsubc.append_right _
      · rw [if_neg hb0] at h
        obtain ⟨c, hc, ht'⟩ := Option.map_eq_some'.mp h
        subst ht'
        obtain ⟨hwfc, hlookc, hmemc, hsubc⟩ := ihr (dep + 1) s sub v c hwr hc
        have hb1 : b = 1 := by
          rcases bit_get?_binary hb with h0 | h1
          · exact absurd h0 hb0
          · exact h1
        have hsnl : s ∉ stemsOf l := by
          intro hmem
          have := Option.some.inj ((hsl s hmem).symm.trans hb)
          omega
        have hll : lookupStem l s = none := lookupStem_eq_none_of_not_mem l s hsnl
        refine ⟨?_, ?_, ?_, ?_⟩
        · rw [WF]
          refine ⟨?_, hsl, ?_, hwl, hwfc⟩
          · have := hsubc.length_le
            omega
          · intro q hq
            rcases (hmemc q).mp hq with rfl | hq'
            · rw [hb, hb1]
            · exact hsr q hq'
        · intro q
          by_cases hq : q = s
          · rw [hq]
            have hlhs : lookupStem (TreeNode.internal l c) s = lookupStem c s := by
              show (lookupStem l s <|> lookupStem c s) = lookupStem c s
              rw [hll]
              rfl
            have hrhs : lookupStem (TreeNode.internal l r) s = lookupStem r s := by
              show (lookupStem l s <|> lookupStem r s) = lookupStem r s
              rw [hll]
              rfl
            rw [hlhs, hlookc s, hrhs]
          · simp only [lookupStem, hlookc q, if_neg hq]
        · intro q
          simp only [stemsOf, List.mem_append]
          rw [hmemc q]
          tauto
        · simp only [stemsOf]
          exact hsubc.append_left _

theorem insertTree_spec (t : TreeNode) (k v : Bytes) (t' : TreeNode)
    (hwf : WF 0 t) (h : insertTree t k v = some t') :
    WF 0 t' ∧
      (∀ q, lookupStem t' q = modelStep (lookupStem t) (k, v) q) ∧
      (∀ q, q ∈ stemsOf t' ↔ q = k.take 31 ∨ q ∈ stemsOf t) := by
  cases t with
  | empty =>
    rw [insertTree] at h
    cases h
    refine ⟨trivial, ?_, ?_⟩
    · intro q
      by_cases hq : q = k.take 31
      · subst hq
        simp [lookupStem, newStemNode, modelStep]
      · have : k.take 31 ≠ q := fun e => hq e.symm
        simp [lookupStem, newStemNode, modelStep, hq, this]
    · intro q
      simp [stemsOf, newStemNode]
  | stem ls lv =>
    replace h : insertRec (.stem ls lv) (k.take 31) (k.getD 31 0) v 0 = some t' := h
    obtain ⟨hwf', hlook, hmem, -⟩ :=
      insertRec_spec (.stem ls lv) 0 (k.take 31) (k.getD 31 0) v t' hwf h
    exact ⟨hwf', fun q => by rw [hlook q]; rfl, hmem⟩
  | internal l r =>
    replace h : insertRec (.internal l r) (k.take 31) (k.getD 31 0) v 0 = some t' := h
    obtain ⟨hwf', hlook, hmem, -⟩ :=
      insertRec_spec (.internal l r) 0 (k.take 31) (k.getD 31 0) v t' hwf h
    exact ⟨hwf', fun q => by rw [hlook q]; rfl, hmem⟩

theorem insertList_spec :
    ∀ (L : List (Bytes × Bytes)) (t0 t : TreeNode), WF 0 t0 →
      insertList t0 L = some t →
      WF 0 t ∧ (∀ q, lookupStem t q = L.foldl modelStep (lookupStem t0) q) := by
  intro L
  induction L with
  | nil =>
    intro t0 t hwf h
    rw [insertList] at h
    cases h
    exact ⟨hwf, fun q => rfl⟩
  | cons kv rest ih =>
    obtain ⟨kk, vv⟩ := kv
    intro t0 t hwf h
    rw [insertList] at h
    cases hstep : insertTree t0 kk vv with
    | none =>
      rw [hstep] at h
      exact absurd h (by simp)
    | some t1 =>
      rw [hstep] at h
      obtain ⟨hwf1, hlook1, -⟩ := insertTree_spec t0 kk vv t1 hwf hstep
      obtain ⟨hwft, hlookt⟩ := ih t1 t hwf1 h
      refine ⟨hwft, fun q => ?_⟩
      have hfn : lookupStem t1 = modelStep (lookupStem t0) (kk, vv) := funext hlook1
      rw [hlookt q, List.foldl_cons, hfn]

theorem lookupStem_stem_eq {s : Bytes} {v : List (Option Bytes)} {q : Bytes}
    (h : (lookupStem (.stem s v) q).isSome) : s = q := by
  by_cases e : s = q
  · exact e
  · simp [lookupStem, e] at h

theorem exists_two_lookups (dep : Nat) (l r : TreeNode)
    (hwf : WF dep (.internal l r)) :
    ∃ q1 q2, q1 ≠ q2 ∧ (lookupStem (.internal l r) q1).isSome ∧
      (lookupStem (.internal l r) q2).isSome := by
  have hpw := stems_pairwise _ dep hwf
  rw [WF] at hwf
  obtain ⟨hcount, -, -, -, -⟩ := hwf
  have hlen : 2 ≤ (stemsOf (.internal l r)).length := by
    simp only [stemsOf, List.length_append]
    omega
  rcases hs : stemsOf (.internal l r) with _ | ⟨q1, _ | ⟨q2, rest⟩⟩
  · rw [hs] at hlen
    simp at hlen
  · rw [hs] at hlen
    simp at hlen
  · refine ⟨q1, q2, ?_, ?_, ?_⟩
    · rw [hs] at hpw
      exact (List.pairwise_cons.mp hpw).1 q2 (by simp)
    · exact lookupStem_isSome_of_mem _ q1 (by rw [hs]; simp)
    · exact lookupStem_isSome_of_mem _ q2 (by rw [hs]; simp)

theorem lookupStem_unique :
    ∀ (t1 : TreeNode) (dep : Nat) (t2 : TreeNode), WF dep t1 → WF dep t2 →
      (∀ q, lookupStem t1 q = lookupStem t2 q) → t1 = t2 := by
  intro t1
  induction t1 with
  | empty =>
    intro dep t2 _ hwf2 heq
    cases t2 with
    | empty => rfl
    | stem s v =>
      have := heq s
      simp [lookupStem] at this
    | internal l2 r2 =>
      obtain ⟨q1, q2, hne, h1, h2⟩ := exists_two_lookups dep l2 r2 hwf2
      rw [← heq q1] at h1
      simp [lookupStem] at h1
  | stem s v =>
    intro dep t2 _ hwf2 heq
    cases t2 with
    | empty =>
      have := heq s
      simp [lookupStem] at this
    | stem s2 v2 =>
      have hs := heq s
      simp only [lookupStem, if_pos rfl] at hs
      by_cases h2 : s2 = s
      · rw [if_pos h2] at hs
        rw [h2, Option.some.inj hs]
      · rw [if_neg h2] at hs
        exact absurd hs (by simp)
    | internal l2 r2 =>
      obtain ⟨q1, q2, hne, h1, h2⟩ := exists_two_lookups dep l2 r2 hwf2
      rw [← heq q1] at h1
      rw [← heq q2] at h2
      exact absurd ((lookupStem_stem_eq h1).symm.trans (lookupStem_stem_eq h2)) hne
  | internal l1 r1 ihl ihr =>
    intro dep t2 hwf1 hwf2 heq
    cases t2 with
    | empty =>
      obtain ⟨q1, q2, hne, h1, h2⟩ := exists_two_lookups dep l1 r1 hwf1
      rw [heq q1] at h1
      simp [lookupStem] at h1
    | stem s2 v2 =>
      obtain ⟨q1, q2, hne, h1, h2⟩ := exists_two_lookups dep l1 r1 hwf1
      rw [heq q1] at h1
      rw [heq q2] at h2
      exact absurd ((lookupStem_stem_eq h1).symm.trans (lookupStem_stem_eq h2)) hne
    | internal l2 r2 =>
      rw [WF] at hwf1 hwf2
      obtain ⟨-, hsl1, hsr1, hwl1, hwr1⟩ := hwf1
      obtain ⟨-, hsl2, hsr2, hwl2, hwr2⟩ := hwf2
      have hL : ∀ q, lookupStem l1 q = lookupStem l2 q := by
        intro q
        by_cases hq0 : (bytesToBits q).get? dep = some 0
        · have hn1 : q ∉ stemsOf r1 := fun m => by
            have := (hsr1 q m).symm.trans hq0
            simp at this
          have hn2 : q ∉ stemsOf r2 := fun m => by
            have := (hsr2 q m).symm.trans hq0
            simp at this
          have := heq q
          simp only [lookupStem] at this
          rw [lookupStem_eq_none_of_not_mem _ _ hn1,
            lookupStem_eq_none_of_not_mem _ _ hn2, orElse_none_right,
            orElse_none_right] at this
          exact this
        · have hn1 : q ∉ stemsOf l1 := fun m => hq0 (hsl1 q m)
          have hn2 : q ∉ stemsOf l2 := fun m => hq0 (hsl2 q m)
          rw [lookupStem_eq_none_of_not_mem _ _ hn1,
            lookupStem_eq_none_of_not_mem _ _ hn2]
      have hR : ∀ q, lookupStem r1 q = lookupStem r2 q := by
        intro q
        by_cases hq1 : (bytesToBits q).get? dep = some 1
        · have hn1 : q ∉ stemsOf l1 := fun m => by
            have := (hsl1 q m).symm.trans hq1
            simp at this
          have hn2 : q ∉ stemsOf l2 := fun m => by
            have := (hsl2 q m).symm.trans hq1
            simp at this
          have := heq q
          simp only [lookupStem] at this
          rw [lookupStem_eq_none_of_not_mem _ _ hn1,
            lookupStem_eq_none_of_not_mem _ _ hn2] at this
          simpa using this
        · have hn1 : q ∉ stemsOf r1 := fun m => hq1 (hsr1 q m)
          have hn2 : q ∉ stemsOf r2 := fun m => hq1 (hsr2 q m)
          rw [lookupStem_eq_none_of_not_mem _ _ hn1,
            lookupStem_eq_none_of_not_mem _ _ hn2]
      rw [ihl (dep + 1) l2 hwl1 hwl2 hL, ihr (dep + 1) r2 hwr1 hwr2 hR]

theorem key_split (k : Bytes) (h : k.length = 32) :
    k = k.take 31 ++ [k.getD 31 0] := by
  have h1 : k.take 31 ++ k.drop 31 = k := List.take_append_drop 31 k
  have h2 : (k.drop 31).length = 1 := by rw [List.length_drop, h]
  rcases hd : k.drop 31 with _ | ⟨a, rest⟩
  · rw [hd] at h2
    simp at h2
  · have hrest : rest = [] := by
      rw [hd] at h2
      simp only [List.length_cons] at h2
      exact List.eq_nil_of_length_eq_zero (by omega)
    subst hrest
    have ha : k.getD 31 0 = a := by
      rw [List.getD_eq_getElem?_getD]
      have hdrop : k[31]? = (k.drop 31)[0]? := by rw [List.getElem?_drop]
      rw [hdrop, hd]
      rfl
    rw [ha, ← hd, h1]

theorem key_fields_ne {k1 k2 : Bytes} (h1 : k1.length = 32) (h2 : k2.length = 32)
    (hne : k1 ≠ k2) :
    k1.take 31 ≠ k2.take 31 ∨ k1.getD 31 0 ≠ k2.getD 31 0 := by
  by_contra hc
  push_neg at hc
  exact hne (by rw [key_split k1 h1, key_split k2 h2, hc.1, hc.2])

theorem modelStep_comm (m : Bytes → Option (List (Option Bytes)))
    (x y : Bytes × Bytes) (hx : x.1.length = 32) (hy : y.1.length = 32)
    (hxy : x = y ∨ x.1 ≠ y.1) :
    modelStep (modelStep m x) y = modelStep (modelStep m y) x := by
  rcases hxy with rfl | hne
  · rfl
  obtain ⟨kx, vx⟩ := x
  obtain ⟨ky, vy⟩ := y
  simp only at hx hy hne
  by_cases hstem : kx.take 31 = ky.take 31
  · have hi : kx.getD 31 0 ≠ ky.getD 31 0 := by
      rcases key_fields_ne hx hy hne with hs | hi
      · exact absurd hstem hs
      · exact hi
    funext q
    simp only [modelStep]
    by_cases hq : q = ky.take 31
    · have hq' : q = kx.take 31 := by rw [hq]; exact hstem.symm
      rw [if_pos hq, if_pos hq', ← hstem]
      simp only [eq_self_iff_true, if_true, Option.getD_some]
      rw [List.set_comm _ _ _ hi]
    · have hq' : ¬ q = kx.take 31 := fun e => hq (by rw [e, hstem])
      rw [if_neg hq, if_neg hq', if_neg hq, if_neg hq']
  · funext q
    have hyx : ¬ ky.take 31 = kx.take 31 := fun e => hstem e.symm
    simp only [modelStep]
    by_cases hqy : q = ky.take 31
    · have hqx : ¬ q = kx.take 31 := fun e => hstem (by rw [← e, hqy])
      simp [hqy, hqx, hyx]
    · by_cases hqx : q = kx.take 31
      · simp [hqy, hqx, hstem]
      · simp [hqy, hqx]

/-- C3 (amended): two insertion orders of the same finite set of
pairwise-distinct 32-byte keys that both run to completion produce the same
`merkelize()` root (indeed the same tree). -/
theorem C3_order_independent_of_completed (d : Bytes → Bytes)
    (L1 L2 : List (Bytes × Bytes)) (t1 t2 : TreeNode)
    (hp : L1.Perm L2)
    (hkeys : ∀ kv ∈ L1, (kv : Bytes × Bytes).1.length = 32)
    (hdist : L1.Pairwise (fun a b => a.1 ≠ b.1))
    (h1 : insertList .empty L1 = some t1)
    (h2 : insertList .empty L2 = some t2) :
    merkelize d t1 = merkelize d t2 := by
  obtain ⟨hwf1, hlook1⟩ := insertList_spec L1 .empty t1 trivial h1
  obtain ⟨hwf2, hlook2⟩ := insertList_spec L2 .empty t2 trivial h2
  have hsym : Symmetric (fun a b : Bytes × Bytes => a.1 ≠ b.1) :=
    fun _ _ h => Ne.symm h
  have hcomm : ∀ x ∈ L1, ∀ y ∈ L1, ∀ m,
      modelStep (modelStep m x) y = modelStep (modelStep m y) x := by
    intro x hxm y hym m
    have hxy : x = y ∨ x.1 ≠ y.1 := by
      by_cases e : x = y
      · exact Or.inl e
      · exact Or.inr (List.Pairwise.forall hsym hdist hxm hym e)
    exact modelStep_comm m x y (hkeys x hxm) (hkeys y hym) hxy
  have hfold := hp.foldl_eq' hcomm (lookupStem TreeNode.empty)
  have heq : ∀ q, lookupStem t1 q = lookupStem t2 q := by
    intro q
    rw [hlook1 q, hlook2 q, hfold]
  rw [lookupStem_unique t1 0 t2 hwf1 hwf2 heq]

theorem slots_getD_set_ne (l : List (Option Bytes)) (j i : Nat) (w : Option Bytes)
    (hne : j ≠ i) : (l.set j w).getD i none = l.getD i none := by
  rw [List.getD_eq_getElem?_getD, List.getD_eq_getElem?_getD,
    List.getElem?_set_ne hne]

theorem replicate_none_getD (n i : Nat) :
    (List.replicate n (none : Option Bytes)).getD i none = none := by
  rw [List.getD_eq_getElem?_getD, List.getElem?_replicate]
  by_cases h : i < n <;> simp [h]

/-- C9: insertion is local to the addressed slot.  On a tree built by
insertions, `insert(k, v)` leaves the value at every (stem, subindex) other
than `(k[0..31], k[31])` exactly as it was, and turns no other slot from
absent to present. -/
theorem C9_insert_local (L : List (Bytes × Bytes)) (t : TreeNode) (k v : Bytes)
    (t' : TreeNode) (hL : insertList .empty L = some t)
    (hins : insertTree t k v = some t') :
    ∀ s i, ¬(s = k.take 31 ∧ i = k.getD 31 0) →
      valueAt t' s i = valueAt t s i ∧
        (valueAt t s i = none → valueAt t' s i = none) := by
  obtain ⟨hwf, -⟩ := insertList_spec L .empty t trivial hL
  obtain ⟨-, hlook, -⟩ := insertTree_spec t k v t' hwf hins
  intro s i hni
  have main : valueAt t' s i = valueAt t s i := by
    rw [valueAt, valueAt, hlook s]
    simp only [modelStep]
    by_cases hs : s = k.take 31
    · have hi : i ≠ k.getD 31 0 := fun e => hni ⟨hs, e⟩
      rw [if_pos hs, hs]
      rw [Option.some_bind]
      rw [slots_getD_set_ne _ _ _ _ (fun e => hi e.symm)]
      cases hm : lookupStem t (k.take 31) with
      | none =>
        simp only [Option.getD_none, Option.none_bind]
        exact replicate_none_getD 256 i
      | some sl =>
        simp only [Option.getD_some, Option.some_bind]
    · rw [if_neg hs]
  exact ⟨main, fun h0 => by rw [main, h0]⟩

/-- Witness for C9: in the singleton tree holding `(keyA, valA)`, inserting
`(keyB, valB)` (same stem, subindex 1) leaves slot (zero stem, 0) intact. -/
theorem C9_insert_local_witness :
    valueAt (.stem (zeros 31)
        (((List.replicate 256 (none : Option Bytes)).set 0 (some valA)).set 1
          (some valB))) (zeros 31) 0 =
      valueAt (newStemNode (zeros 31) 0 valA) (zeros 31) 0 ∧
      (valueAt (newStemNode (zeros 31) 0 valA) (zeros 31) 0 = none →
        valueAt (.stem (zeros 31)
          (((List.replicate 256 (none : Option Bytes)).set 0 (some valA)).set 1
            (some valB))) (zeros 31) 0 = none) :=
  C9_insert_local [(keyA, valA)] (newStemNode (zeros 31) 0 valA) keyB valB
    (.stem (zeros 31)
      (((List.replicate 256 (none : Option Bytes)).set 0 (some valA)).set 1
        (some valB)))
    (by decide) (by decide) (zeros 31) 0 (by decide)

/-- Witness for the amended C3 at a concrete two-key set inserted in both
orders (the two orders produce this very tree). -/
theorem C3_order_independent_witness :
    merkelize dOnes (.internal (newStemNode (zeros 31) 0 valA)
        (newStemNode (128 :: zeros 30) 0 valB)) =
      merkelize dOnes (.internal (newStemNode (zeros 31) 0 valA)
        (newStemNode (128 :: zeros 30) 0 valB)) :=
  C3_order_independent_of_completed dOnes
    [(keyA, valA), (keyD, valB)] [(keyD, valB), (keyA, valA)]
    (.internal (newStemNode (zeros 31) 0 valA)
      (newStemNode (128 :: zeros 30) 0 valB))
    (.internal (newStemNode (zeros 31) 0 valA)
      (newStemNode (128 :: zeros 30) 0 valB))
    (by decide) (by decide) (by decide) (by decide) (by decide)

theorem chunksGo_length :
    ∀ (fuel : Nat) (l : Bytes), l.length ≤ fuel →
      (chunksGo fuel l).length = (l.length + 30) / 31 := by
  intro fuel
  induction fuel with
  | zero =>
    intro l hl
    have : l = [] := List.eq_nil_of_length_eq_zero (by omega)
    subst this
    rfl
  | succ fuel ih =>
    intro l hl
    rw [chunksGo]
    by_cases he : l = []
    · rw [if_pos he, he]
      rfl
    · rw [if_neg he]
      have hpos : 1 ≤ l.length := by
        cases l
        · exact absurd rfl he
        · simp
      have hdrop : (l.drop 31).length = l.length - 31 := List.length_drop 31 l
      simp only [List.length_cons, ih (l.drop 31) (by rw [hdrop]; omega), hdrop]
      omega

/-- C8: `chunkify_code` emits exactly `ceil(len(code) / 31)` chunks for every
input, and on the 33-byte code `PUSH32` followed by 32 zero bytes the two
chunks carry exec-data bytes 0 and 2. -/
theorem C8_chunkify_code (code : Bytes) :
    (chunkifyCode code).length = (code.length + 30) / 31 ∧
      (chunkifyCode (PUSH32 :: zeros 32)).map (fun c => c.headD 99) = [0, 2] := by
  constructor
  · simp only [chunkifyCode, List.length_map, List.enum_length, chunksOf31]
    rw [chunksGo_length _ _ (le_refl _)]
    by_cases hm : code.length % 31 = 0
    · rw [if_pos hm]
    · rw [if_neg hm]
      simp only [List.length_append, List.length_replicate]
      omega
  · decide

/-- C6: for storage slots `k < 64`, the tree key uses `pos = 64 + k`, so all
such keys share the stem derived from `tree_index = 0` and end in byte
`64 + k`; for `k ≥ 64` the key uses `pos = 256 + k`, and at `k = 64` the stem
comes from `tree_index = 1`, which differs from the shared header stem
whenever the digest's first 31 bytes distinguish the two index buffers
(hypothesis `hcol`, established for BLAKE3 at a concrete address in the
witness). -/
theorem C6_storage_slot_keys (d : Bytes → Bytes) (addr : Bytes) (k : Nat)
    (hk : k < 64)
    (hlen0 : (d (addr ++ le64 0)).length = 32)
    (hlen1 : (d (addr ++ le64 1)).length = 32)
    (hcol : (d (addr ++ le64 1)).take 31 ≠ (d (addr ++ le64 0)).take 31) :
    (getTreeKeyForStorageSlot d addr k).take 31 =
        (getTreeKeyForStorageSlot d addr 0).take 31 ∧
      (getTreeKeyForStorageSlot d addr k).getD 31 0 = 64 + k ∧
      (∀ k2, 64 ≤ k2 →
        getTreeKeyForStorageSlot d addr k2 =
          getTreeKey d addr ((256 + k2) / 256) ((256 + k2) % 256)) ∧
      (getTreeKeyForStorageSlot d addr 64).take 31 ≠
        (getTreeKeyForStorageSlot d addr 0).take 31 := by
  have hx0 : ((d (addr ++ le64 0)).take 31).length = 31 := by
    rw [List.length_take, hlen0]
    rfl
  have hx1 : ((d (addr ++ le64 1)).take 31).length = 31 := by
    rw [List.length_take, hlen1]
    rfl
  have htake0 : ∀ a : Nat, ((d (addr ++ le64 0)).take 31 ++ [a]).take 31 =
      (d (addr ++ le64 0)).take 31 := by
    intro a
    have := List.take_left ((d (addr ++ le64 0)).take 31) [a]
    rwa [hx0] at this
  have htake1 : ∀ a : Nat, ((d (addr ++ le64 1)).take 31 ++ [a]).take 31 =
      (d (addr ++ le64 1)).take 31 := by
    intro a
    have := List.take_left ((d (addr ++ le64 1)).take 31) [a]
    rwa [hx1] at this
  have keyk : ∀ j, j < 64 → getTreeKeyForStorageSlot d addr j =
      (d (addr ++ le64 0)).take 31 ++ [64 + j] := by
    intro j hj
    simp only [getTreeKeyForStorageSlot, CODE_OFFSET, HEADER_STORAGE_OFFSET,
      STEM_SUBTREE_WIDTH, MAIN_STORAGE_OFFSET, getTreeKey]
    rw [if_pos (by omega)]
    rw [Nat.div_eq_of_lt (by omega), Nat.mod_eq_of_lt (by omega)]
  have key64 : getTreeKeyForStorageSlot d addr 64 =
      (d (addr ++ le64 1)).take 31 ++ [64] := by
    simp only [getTreeKeyForStorageSlot, CODE_OFFSET, HEADER_STORAGE_OFFSET,
      STEM_SUBTREE_WIDTH, MAIN_STORAGE_OFFSET, getTreeKey]
    rw [if_neg (by omega)]
  refine ⟨?_, ?_, ?_, ?_⟩
  · rw [keyk k hk, keyk 0 (by omega), htake0, htake0]
  · rw [keyk k hk, List.getD_eq_getElem?_getD,
      List.getElem?_append_right (by rw [hx0]), hx0]
    rfl
  · intro k2 hk2
    simp only [getTreeKeyForStorageSlot, CODE_OFFSET, HEADER_STORAGE_OFFSET,
      STEM_SUBTREE_WIDTH, MAIN_STORAGE_OFFSET]
    rw [if_neg (by omega)]
  · rw [key64, keyk 0 (by omega), htake1, htake0]
    exact hcol

/-! ### Heavy concrete evaluations (kernel computation) -/

/-- Validation of the embedding: inserting (all-zero key, value `0x01 × 32`)
into an empty tree and merkelizing with the embedded BLAKE3 reproduces the
root hash expected by the repository's `test_single_entry`. -/
theorem merkelize_repo_test_vector :
    (insertList .empty [(keyA, valA)]).map (merkelize blake3Bytes) =
      some repoRootSingle := by decide

/-- C2: the claim that `insert` never aborts is wrong.  After inserting two
keys whose stems differ only at bit 247, the stem leaves sit at depth 248;
re-inserting a key with the stem of such a leaf (here the all-zero stem)
makes `insert_rec` reach depth 248 and the assertion `depth < 248` fails —
modelled as the insertion sequence evaluating to `none` — even though the
first two insertions succeed. -/
theorem C2_insert_depth_assert_reachable :
    (insertList .empty [(keyA, valA), (keyC, valB)]).isSome = true ∧
      insertList .empty [(keyA, valA), (keyC, valB), (keyA, valC)] = none :=
  ⟨by decide, by decide⟩

/-- The tree produced by inserting `(keyA, valA)` then `(keyB, valB)`:
one stem leaf, values at subindices 0 and 1. -/
def c1Tree : TreeNode :=
  .stem (zeros 31)
    (((List.replicate 256 (none : Option Bytes)).set 0 (some valA)).set 1
      (some valB))

/-- BLAKE3 `merkelize()` root of `c1Tree` (two populated slots). -/
def c1Root : Bytes :=
  [162, 150, 22, 0, 60, 128, 246, 197, 160, 177, 60, 102, 187, 120, 10, 136,
   239, 158, 97, 96, 52, 194, 237, 17, 152, 109, 117, 229, 56, 124, 220, 135]

theorem c1TreeEval :
    insertList .empty [(keyA, valA), (keyB, valB)] = some c1Tree := by decide

theorem c1GetProofEval :
    getProof blake3Bytes c1Tree keyA =
      some ⟨[], some valA, 0, zeros 31⟩ := by decide

theorem c1RootEval : merkelize blake3Bytes c1Tree = c1Root := by decide

theorem c1VerifyEval :
    verifyProof blake3Bytes ⟨[], some valA, 0, zeros 31⟩ c1Root keyA = false := by
  decide

/-- C1: the proof round-trip claim is wrong.  Insert `(keyA, valA)` and
`(keyB, valB)` (same stem, subindices 0 and 1); `get_proof(keyA)` returns a
proof whose value is `valA` as claimed, but `verify_proof` rejects it against
`merkelize()`, because the verifier recomputes the stem-leaf content root
with only the proof's subindex populated, ignoring the co-located value at
subindex 1 (the proof format carries no intra-stem siblings).  The concrete
evaluations are staged in the lemmas above so that each kernel reduction
stays small. -/
theorem C1_verify_proof_rejects_on_shared_stem :
    (insertList .empty [(keyA, valA), (keyB, valB)]).map
        (fun t =>
          (getProof blake3Bytes t keyA).map
            (fun p =>
              (p.value, verifyProof blake3Bytes p (merkelize blake3Bytes t) keyA))) =
      some (some (some valA, false)) := by
  rw [c1TreeEval, Option.map_some', c1GetProofEval, Option.map_some', c1RootEval,
    c1VerifyEval]

/-- C3 counterexample: the same three pairwise-distinct keys, in two
permuted orders.  Inserting `keyB` (shared stem with `keyA`) before `keyC`
(stem differing from it only at bit 247) completes; the other order panics
on the third insertion, so that order yields no root at all. -/
theorem C3_some_order_aborts :
    ([(keyA, valA), (keyB, valC), (keyC, valB)] : List (Bytes × Bytes)).Perm
        [(keyA, valA), (keyC, valB), (keyB, valC)] ∧
      ([(keyA, valA), (keyB, valC), (keyC, valB)] : List (Bytes × Bytes)).Pairwise
        (fun a b => a.1 ≠ b.1) ∧
      (insertList .empty [(keyA, valA), (keyB, valC), (keyC, valB)]).isSome =
        true ∧
      insertList .empty [(keyA, valA), (keyC, valB), (keyB, valC)] = none :=
  ⟨by decide, by decide, by decide, by decide⟩

/-- Witness for C6 with the embedded BLAKE3 at the address `0x42 × 32` (the
address used by the repository's own embedding test) and slot `k = 7`. -/
theorem C6_storage_slot_keys_witness :
    (getTreeKeyForStorageSlot blake3Bytes (List.replicate 32 66) 7).take 31 =
        (getTreeKeyForStorageSlot blake3Bytes (List.replicate 32 66) 0).take 31 ∧
      (getTreeKeyForStorageSlot blake3Bytes (List.replicate 32 66) 7).getD 31 0 =
        64 + 7 ∧
      (∀ k2, 64 ≤ k2 →
        getTreeKeyForStorageSlot blake3Bytes (List.replicate 32 66) k2 =
          getTreeKey blake3Bytes (List.replicate 32 66) ((256 + k2) / 256)
            ((256 + k2) % 256)) ∧
      (getTreeKeyForStorageSlot blake3Bytes (List.replicate 32 66) 64).take 31 ≠
        (getTreeKeyForStorageSlot blake3Bytes (List.replicate 32 66) 0).take 31 :=
  C6_storage_slot_keys blake3Bytes (List.replicate 32 66) 7 (by decide)
    (by decide) (by decide) (by decide)
